import Mathlib

/-!
Shallow embedding of the vtt-translate core: sentence reconstruction
(`recontruct_sentences`), proportional text reflow (`update_vtt`), and the
subtitle parser/writer (`parseLines` / `writeLines`) with the right-to-left
direction post-processing.  Strings are modelled as `List Char`; Rust's
byte-oriented `String::len` is modelled by `utf8Len` (the UTF-8 byte count),
and `char::is_whitespace` by the Unicode White_Space set.
-/

/-- Unicode White_Space property, as used by Rust `char::is_whitespace`
and by the `\s` class of the regex crate. -/
def rustIsWhitespace (c : Char) : Bool :=
  let n := c.toNat
  n == 9 || n == 10 || n == 11 || n == 12 || n == 13 || n == 32 ||
  n == 133 || n == 160 || n == 5760 ||
  (decide (8192 ≤ n) && decide (n ≤ 8202)) ||
  n == 8232 || n == 8233 || n == 8239 || n == 8287 || n == 12288

/-- Rust `str::trim_start`: drop leading whitespace. -/
def rustTrimStart (s : List Char) : List Char :=
  s.dropWhile rustIsWhitespace

/-- Rust `str::trim_end`: drop trailing whitespace. -/
def rustTrimEnd (s : List Char) : List Char :=
  (s.reverse.dropWhile rustIsWhitespace).reverse

/-- Rust `str::trim`: drop leading and trailing whitespace. -/
def rustTrim (s : List Char) : List Char :=
  rustTrimEnd (rustTrimStart s)

/-- Number of bytes of the UTF-8 encoding of a scalar value
(Rust `char::len_utf8`). -/
def charUtf8Size (c : Char) : Nat :=
  if c.toNat < 128 then 1
  else if c.toNat < 2048 then 2
  else if c.toNat < 65536 then 3
  else 4

/-- Rust `str::len`: length in UTF-8 bytes. -/
def utf8Len (s : List Char) : Nat :=
  (s.map charUtf8Size).sum

/-- Rust `str::split(sep)` on a single-character separator: always returns at
least one piece; a trailing separator yields a trailing empty piece. -/
def splitOnChar (sep : Char) : List Char → List (List Char)
  | [] => [[]]
  | c :: cs =>
    match splitOnChar sep cs with
    | [] => [[]]
    | r :: rs => if c = sep then [] :: r :: rs else (c :: r) :: rs

/-- Provenance of one sentence fragment: `ChunkDesc` in `lib.rs`. -/
structure ChunkDesc where
  block_num : Nat
  line_num : Nat
  chunk_len : Nat
deriving DecidableEq

/-- `type Sentence = (Vec<ChunkDesc>, String)` from `lib.rs`. -/
abbrev Sentence := List ChunkDesc × List Char

/-- One timed caption block (`VttBlock` in `vtt.rs`). -/
structure VttBlock where
  _id : List Char
  timecode : List Char
  text_lines : List (List Char)
deriving DecidableEq

/-- A parsed subtitle document (`Vtt` in `vtt.rs`). -/
structure Vtt where
  blocks : List VttBlock
deriving DecidableEq

/-- Writing direction (`Direction` in `vtt.rs`). -/
inductive Direction where
  | Ltr
  | Rtl
deriving DecidableEq

/-- Accumulator state of the reconstruction loop in `recontruct_sentences`:
the sentences emitted so far, the chunk descriptors of the open sentence,
and the text of the open sentence. -/
structure ReconState where
  all : List Sentence
  descs : List ChunkDesc
  cur : List Char
deriving DecidableEq

/-- The inner `while let Some(chunk) = chunks.next()` loop of
`recontruct_sentences`, over the pieces of one text line split on `'.'`.
`rest = []` models `chunks.peek().is_none()`. -/
def processChunks (bn ln : Nat) : List (List Char) → ReconState → ReconState
  | [], st => st
  | chunk :: rest, st =>
    let st' :=
      if chunk = [] then st
      else
        let c := rustTrim chunk
        let descs := st.descs ++ [⟨bn, ln, utf8Len c⟩]
        let cur := st.cur ++ c
        if rest = [] then ⟨st.all, descs, cur ++ [' ']⟩
        else ⟨st.all ++ [(descs, cur ++ ['.'])], [], []⟩
    processChunks bn ln rest st'

/-- Processing of one text line in `recontruct_sentences`: trim, split on
`'.'`, then run the chunk loop. -/
def processLine (bn ln : Nat) (st : ReconState) (line : List Char) : ReconState :=
  processChunks bn ln (splitOnChar '.' (rustTrim line)) st

/-- Processing of one block in `recontruct_sentences`: its lines in order,
enumerated. -/
def processBlock (bn : Nat) (st : ReconState) (b : VttBlock) : ReconState :=
  b.text_lines.enum.foldl (fun s p => processLine bn p.1 s p.2) st

/-- `recontruct_sentences` from `lib.rs` (source spelling kept): scan the
blocks and assemble fullstop-delimited sentences with their provenance.
The still-open sentence at end of input is not emitted. -/
def recontruct_sentences (vtt : Vtt) : List Sentence :=
  (vtt.blocks.enum.foldl (fun st p => processBlock p.1 st p.2) ⟨[], [], []⟩).all

/-- `total_chunks_len` in `update_vtt`: sum of the chunk lengths of a
sentence's descriptors. -/
def totalLen (descs : List ChunkDesc) : Nat :=
  descs.foldl (fun n cd => n + cd.chunk_len) 0

/-- `new_chunk_size` in `update_vtt`: the length-proportional target size of
one reflowed chunk (integer division). -/
def newChunkSize (chunkLen textLen total : Nat) : Nat :=
  chunkLen * textLen / total

/-- The inner word-consuming `while` loop of `update_vtt`: accumulate words
into one chunk while it is empty, or comfortably below the target size, or
this is the last chunk of the sentence.  Each consumed non-empty word is
appended followed by a single space. -/
def fillChunk (last : Bool) (target : Nat) :
    List Char → List (List Char) → List Char × List (List Char)
  | chunk, [] => (chunk, [])
  | chunk, w :: ws =>
    if chunk = [] ∨ utf8Len chunk + 3 ≤ target ∨ last = true then
      fillChunk last target (if w = [] then chunk else chunk ++ w ++ [' ']) ws
    else (chunk, w :: ws)

/-- The chunk loop of `update_vtt` for one sentence: the texts produced for
the successive chunk descriptors, consuming the word stream left to right.
`rest = []` models `chunk_descs.peek().is_none()`. -/
def chunkTexts (textLen total : Nat) : List ChunkDesc → List (List Char) → List (List Char)
  | [], _ => []
  | cd :: rest, ws =>
    let target := newChunkSize cd.chunk_len textLen total
    let r := fillChunk rest.isEmpty target [] ws
    r.1 :: chunkTexts textLen total rest r.2

/-- The write-back step of `update_vtt`: append a chunk text to the addressed
line, preceded by a space when the line already holds text.  Out-of-range
indices model a Rust index panic as `none`. -/
def appendChunk (v : Vtt) (bn ln : Nat) (txt : List Char) : Option Vtt :=
  match v.blocks.get? bn with
  | none => none
  | some b =>
    match b.text_lines.get? ln with
    | none => none
    | some l =>
      let l' := if l = [] then txt else l ++ ' ' :: txt
      some ⟨v.blocks.set bn { b with text_lines := b.text_lines.set ln l' }⟩

/-- Writing all chunk texts of one sentence to their positions, in order. -/
def writeChunks : Vtt → List ChunkDesc → List (List Char) → Option Vtt
  | v, [], _ => some v
  | v, cd :: rest, txts =>
    match txts with
    | [] => some v
    | t :: ts =>
      match appendChunk v cd.block_num cd.line_num t with
      | none => none
      | some v' => writeChunks v' rest ts

/-- Reflow of one sentence in `update_vtt`.  A non-empty descriptor list with
zero total length models Rust's division-by-zero panic as `none`. -/
def placeSentence (v : Vtt) (s : Sentence) : Option Vtt :=
  if s.1 ≠ [] ∧ totalLen s.1 = 0 then none
  else writeChunks v s.1 (chunkTexts (utf8Len s.2) (totalLen s.1) s.1 (splitOnChar ' ' s.2))

/-- The blanking pass of `update_vtt`: every text line replaced by the empty
string, line and block counts unchanged. -/
def blankLines (v : Vtt) : Vtt :=
  ⟨v.blocks.map (fun b => { b with text_lines := b.text_lines.map (fun _ => ([] : List Char)) })⟩

/-- `update_vtt` from `lib.rs`: blank every line, then reflow each sentence
in order.  `none` models a Rust panic (division by zero or out-of-range
index). -/
def update_vtt (v : Vtt) (ss : List Sentence) : Option Vtt :=
  ss.foldl (fun acc s => acc.bind (fun v' => placeSentence v' s)) (some (blankLines v))

/-- The right-to-left mark U+200F. -/
def rlm : Char := '‏'

/-- Rust `char::is_ascii`: code point at most 0x7F. -/
def charIsAscii (c : Char) : Bool :=
  decide (c.toNat ≤ 127)

/-- Post-processing of one text line in `Vtt::write`: trim, and for
right-to-left output wrap ASCII-initial / ASCII-final lines in U+200F marks
(an empty line falls back to the ASCII character `'a'`). -/
def writeTextLine (dir : Direction) (line : List Char) : List Char :=
  let l := rustTrim line
  match dir with
  | .Ltr => l
  | .Rtl =>
    let l1 := if charIsAscii (l.headD 'a') then rlm :: l else l
    if charIsAscii ((rustTrim l1).getLastD 'a') then l1 ++ [rlm] else l1

/-- The lines emitted by `Vtt::write` for one block: identifier, timecode,
processed text lines, then a blank separator line. -/
def writeBlockLines (dir : Direction) (b : VttBlock) : List (List Char) :=
  b._id :: b.timecode :: (b.text_lines.map (writeTextLine dir) ++ [[]])

/-- The header line `WEBVTT`. -/
def webvttChars : List Char := "WEBVTT".toList

/-- The full line sequence emitted by `Vtt::write`: header, blank line,
then every block's lines. -/
def writeLines (v : Vtt) (dir : Direction) : List (List Char) :=
  webvttChars :: ([] : List Char) :: v.blocks.flatMap (writeBlockLines dir)

/-- `is_blank` from `vtt.rs` (regex `^\s*$`): all characters whitespace. -/
def isBlankB (s : List Char) : Bool :=
  s.all rustIsWhitespace

/-- ASCII hexadecimal digit, the `[0-9a-fA-F]` class. -/
def isHexDigitB (c : Char) : Bool :=
  let n := c.toNat
  (decide (48 ≤ n) && decide (n ≤ 57)) ||
  (decide (97 ≤ n) && decide (n ≤ 102)) ||
  (decide (65 ≤ n) && decide (n ≤ 70))

/-- Consume exactly `n` hexadecimal digits. -/
def dropHex : Nat → List Char → Option (List Char)
  | 0, s => some s
  | _ + 1, [] => none
  | n + 1, c :: s => if isHexDigitB c then dropHex n s else none

/-- Consume a literal `'-'`. -/
def dropDash : List Char → Option (List Char)
  | '-' :: s => some s
  | _ => none

/-- `is_new_block` from `vtt.rs`: the line starts with an 8-4-4-4-12
hexadecimal token (the word boundaries of the regex are forced by the
literal dashes, and any suffix is allowed). -/
def isNewBlockB (s : List Char) : Bool :=
  ((((((((dropHex 8 s).bind dropDash).bind (dropHex 4)).bind dropDash).bind
      (dropHex 4)).bind dropDash).bind (dropHex 4)).bind dropDash |>.bind (dropHex 12)).isSome

/-- Does the line start with the three characters of `-->`? -/
def isArrowStart (l : List Char) : Bool :=
  match l with
  | a :: b :: c :: _ => decide (a = '-') && decide (b = '-') && decide (c = '>')
  | _ => false

/-- `is_timecode` from `vtt.rs`: the line contains the token `-->`
(some suffix starts with it). -/
def containsArrow : List Char → Bool
  | [] => false
  | c :: cs => isArrowStart (c :: cs) || containsArrow cs

/-- One step of the line loop of `Vtt::parse`: state is the in-progress
block and the blocks flushed so far. -/
def parseStep (st : Option VttBlock × List VttBlock) (line : List Char) :
    Option VttBlock × List VttBlock :=
  if isBlankB line = true ∨ line = webvttChars then st
  else if isNewBlockB line = true then
    (some ⟨line, [], []⟩,
     match st.1 with
     | none => st.2
     | some b => st.2 ++ [b])
  else if containsArrow line = true then
    (st.1.map (fun b => { b with timecode := line }), st.2)
  else
    (st.1.map (fun b => { b with text_lines := b.text_lines ++ [rustTrim line] }), st.2)

/-- Flush of the final in-progress block at end of input in `Vtt::parse`. -/
def parseFinish (st : Option VttBlock × List VttBlock) : List VttBlock :=
  match st.1 with
  | none => st.2
  | some b => st.2 ++ [b]

/-- `Vtt::parse` from `vtt.rs`, over the line sequence of the input file. -/
def parseLines (doc : List (List Char)) : Vtt :=
  ⟨parseFinish (doc.foldl parseStep (none, []))⟩

example : splitOnChar '.' "ab.c.".toList = ["ab".toList, "c".toList, []] := by decide
example : rustTrim ("  a b  ".toList) = "a b".toList := by decide
example : utf8Len ("aé".toList) = 3 := by decide
example : isNewBlockB ("f9e6254d-71b5-400f-bdcc-802831ce24f4-0".toList) = true := by decide
example : containsArrow ("00:00:05.020 --> 00:00:08.874".toList) = true := by decide
example : isBlankB ("    ".toList) = true := by decide

/-- Words of a replacement text each followed by one space, exactly the shape
the reflow loop accumulates. -/
def joinW : List (List Char) → List Char
  | [] => []
  | w :: ws => w ++ ' ' :: joinW ws

/-- Sentence text assembled from its fragments: every non-terminal fragment
followed by a single space, the terminal fragment followed by `'.'`. -/
def fragJoin : List (List Char) → List Char
  | [] => ['.']
  | [f] => f ++ ['.']
  | f :: fs => f ++ ' ' :: fragJoin fs

/-- The non-empty words of a text, split on single spaces. -/
def rustWords (s : List Char) : List (List Char) :=
  (splitOnChar ' ' s).filter (fun w => !w.isEmpty)

theorem charUtf8Size_pos (c : Char) : 1 ≤ charUtf8Size c := by
  unfold charUtf8Size
  split
  · exact Nat.le_refl 1
  · split
    · omega
    · split <;> omega

theorem utf8Len_append (a b : List Char) : utf8Len (a ++ b) = utf8Len a + utf8Len b := by
  simp [utf8Len]

theorem utf8Len_pos (l : List Char) (h : l ≠ []) : 0 < utf8Len l := by
  cases l with
  | nil => exact absurd rfl h
  | cons c cs =>
    have := charUtf8Size_pos c
    simp only [utf8Len, List.map_cons, List.sum_cons]
    omega

theorem splitOnChar_ne_nil (sep : Char) (s : List Char) : splitOnChar sep s ≠ [] := by
  induction s with
  | nil => simp [splitOnChar]
  | cons c cs ih =>
    unfold splitOnChar
    cases h : splitOnChar sep cs with
    | nil => simp
    | cons r rs => by_cases hc : c = sep <;> simp [hc]

theorem splitOnChar_cons (sep c : Char) (cs r : List Char) (rs : List (List Char))
    (h : splitOnChar sep cs = r :: rs) :
    splitOnChar sep (c :: cs)
      = if c = sep then [] :: r :: rs else (c :: r) :: rs := by
  unfold splitOnChar
  rw [h]

theorem splitOnChar_not_mem (sep : Char) (s : List Char) :
    ∀ w ∈ splitOnChar sep s, sep ∉ w := by
  induction s with
  | nil =>
    intro w hw
    simp [splitOnChar] at hw
    simp [hw]
  | cons c cs ih =>
    intro w hw
    cases h : splitOnChar sep cs with
    | nil => exact absurd h (splitOnChar_ne_nil sep cs)
    | cons r rs =>
      rw [splitOnChar_cons sep c cs r rs h] at hw
      by_cases hc : c = sep
      · rw [if_pos hc, List.mem_cons] at hw
        rcases hw with hw | hw
        · simp [hw]
        · exact ih w (h ▸ hw)
      · rw [if_neg hc, List.mem_cons] at hw
        rcases hw with hw | hw
        · subst hw
          intro hmem
          rw [List.mem_cons] at hmem
          rcases hmem with hmem | hmem
          · exact hc hmem.symm
          · exact ih r (h ▸ List.mem_cons_self r rs) hmem
        · exact ih w (h ▸ List.mem_cons_of_mem r hw)

theorem splitOnChar_append_cons (sep : Char) (w rest : List Char) (hw : sep ∉ w) :
    splitOnChar sep (w ++ sep :: rest) = w :: splitOnChar sep rest := by
  induction w with
  | nil =>
    cases h : splitOnChar sep rest with
    | nil => exact absurd h (splitOnChar_ne_nil sep rest)
    | cons r rs =>
      show splitOnChar sep (sep :: rest) = _
      rw [splitOnChar_cons sep sep rest r rs h, if_pos rfl]
  | cons a w ih =>
    have ha : a ≠ sep := fun h => hw (h ▸ List.mem_cons_self a w)
    have hw' : sep ∉ w := fun h => hw (List.mem_cons_of_mem a h)
    show splitOnChar sep (a :: (w ++ sep :: rest)) = _
    rw [splitOnChar_cons sep a (w ++ sep :: rest) w (splitOnChar sep rest) (ih hw'),
      if_neg ha]

theorem splitOnChar_joinW (ws : List (List Char)) (h : ∀ w ∈ ws, ' ' ∉ w) :
    splitOnChar ' ' (joinW ws) = ws ++ [[]] := by
  induction ws with
  | nil => rfl
  | cons w ws ih =>
    show splitOnChar ' ' (w ++ ' ' :: joinW ws) = _
    rw [splitOnChar_append_cons ' ' w (joinW ws) (h w (List.mem_cons_self w ws))]
    rw [ih (fun x hx => h x (List.mem_cons_of_mem w hx))]
    rfl

theorem rustWords_joinW (ws : List (List Char)) (h : ∀ w ∈ ws, w ≠ [] ∧ ' ' ∉ w) :
    rustWords (joinW ws) = ws := by
  unfold rustWords
  rw [splitOnChar_joinW ws (fun w hw => (h w hw).2)]
  rw [List.filter_append]
  have h1 : List.filter (fun w => !w.isEmpty) ws = ws :=
    List.filter_eq_self.mpr (fun w hw => by
      have := (h w hw).1
      cases w with
      | nil => exact absurd rfl this
      | cons a l => rfl)
  simp [h1]

theorem fillChunk_spec (last : Bool) (target : Nat) :
    ∀ (ws : List (List Char)) (chunk : List Char),
      ∃ n, fillChunk last target chunk ws
            = (chunk ++ joinW ((ws.take n).filter (fun w => !w.isEmpty)), ws.drop n)
        ∧ (last = true → n = ws.length) := by
  intro ws
  induction ws with
  | nil =>
    intro chunk
    exact ⟨0, by simp [fillChunk, joinW], fun _ => rfl⟩
  | cons w ws ih =>
    intro chunk
    by_cases hcond : chunk = [] ∨ utf8Len chunk + 3 ≤ target ∨ last = true
    · obtain ⟨n, heq, hlast⟩ := ih (if w = [] then chunk else chunk ++ w ++ [' '])
      refine ⟨n + 1, ?_, fun hl => by rw [hlast hl]; rfl⟩
      rw [fillChunk, if_pos hcond, heq]
      by_cases hw : w = []
      · simp [hw, joinW]
      · simp only [hw, if_neg hw, List.take_succ_cons, List.drop_succ_cons]
        have : List.filter (fun w => !w.isEmpty) (w :: ws.take n)
            = w :: List.filter (fun w => !w.isEmpty) (ws.take n) := by
          rw [List.filter_cons_of_pos]
          cases w with
          | nil => exact absurd rfl hw
          | cons a l => rfl
        rw [this]
        show (chunk ++ w ++ [' '] ++ joinW _, _) = (chunk ++ (w ++ ' ' :: joinW _), _)
        simp [List.append_assoc]
    · refine ⟨0, ?_, fun hl => absurd (Or.inr (Or.inr hl)) hcond⟩
      rw [fillChunk, if_neg hcond]
      simp [joinW]

theorem totalLen_nil : totalLen [] = 0 := rfl

theorem chunkTexts_words (textLen total : Nat) :
    ∀ (descs : List ChunkDesc) (ws : List (List Char)), descs ≠ [] →
      (∀ w ∈ ws, ' ' ∉ w) →
      (chunkTexts textLen total descs ws).flatMap rustWords
        = ws.filter (fun w => !w.isEmpty) := by
  intro descs
  induction descs with
  | nil => intro ws h; exact absurd rfl h
  | cons cd rest ih =>
    intro ws _ hws
    cases rest with
    | nil =>
      obtain ⟨n, heq, hlast⟩ :=
        fillChunk_spec true (newChunkSize cd.chunk_len textLen total) ws []
      rw [hlast rfl] at heq
      simp only [List.take_length, List.drop_length] at heq
      show ((fillChunk true _ [] ws).1 ::
          chunkTexts textLen total [] (fillChunk true _ [] ws).2).flatMap rustWords = _
      rw [heq]
      show rustWords ([] ++ joinW _) ++ [] = _
      rw [List.append_nil, List.nil_append]
      exact rustWords_joinW _ (fun w hw => by
        have h1 := List.of_mem_filter hw
        have h2 := List.mem_of_mem_filter hw
        refine ⟨?_, hws w h2⟩
        cases w with
        | nil => simp at h1
        | cons a l => simp)
    | cons cd2 rest2 =>
      obtain ⟨n, heq, _⟩ :=
        fillChunk_spec false (newChunkSize cd.chunk_len textLen total) ws []
      show ((fillChunk (cd2 :: rest2).isEmpty _ [] ws).1 ::
          chunkTexts textLen total (cd2 :: rest2)
            (fillChunk (cd2 :: rest2).isEmpty _ [] ws).2).flatMap rustWords = _
      have hie : (cd2 :: rest2).isEmpty = false := rfl
      rw [hie, heq]
      show rustWords ([] ++ joinW _) ++
          (chunkTexts textLen total (cd2 :: rest2) (ws.drop n)).flatMap rustWords = _
      rw [List.nil_append]
      rw [ih (ws.drop n) (by simp) (fun w hw => hws w (List.mem_of_mem_drop hw))]
      rw [rustWords_joinW _ (fun w hw => by
        have h1 := List.of_mem_filter hw
        have h2 := List.mem_of_mem_filter hw
        refine ⟨?_, hws w (List.mem_of_mem_take h2)⟩
        cases w with
        | nil => simp at h1
        | cons a l => simp)]
      rw [← List.filter_append, List.take_append_drop]

theorem totalLen_eq_sum (descs : List ChunkDesc) :
    totalLen descs = (descs.map ChunkDesc.chunk_len).sum := by
  have aux : ∀ (l : List ChunkDesc) (n : Nat),
      l.foldl (fun n cd => n + cd.chunk_len) n = n + (l.map ChunkDesc.chunk_len).sum := by
    intro l
    induction l with
    | nil => intro n; simp
    | cons cd l ih => intro n; simp [ih]; omega
  simpa [totalLen] using aux descs 0

theorem chunkTexts_single (textLen total : Nat) (cd : ChunkDesc) (ws : List (List Char)) :
    chunkTexts textLen total [cd] ws = [joinW (ws.filter (fun w => !w.isEmpty))] := by
  obtain ⟨n, heq, hlast⟩ :=
    fillChunk_spec true (newChunkSize cd.chunk_len textLen total) ws []
  rw [hlast rfl] at heq
  simp only [List.take_length, List.drop_length] at heq
  show (fillChunk true _ [] ws).1 :: chunkTexts textLen total [] (fillChunk true _ [] ws).2
      = _
  rw [heq]
  rfl

/-- C2: for every sentence with a positive total original length, reflow
places every non-empty word of the replacement text exactly once, in order
(the flattened word sequence of the produced chunk texts is the word
sequence of the replacement text), and a sentence with exactly one fragment
position receives the whole replacement text. -/
theorem claim_C2_word_conservation (s : Sentence) (h : 0 < totalLen s.1) :
    (chunkTexts (utf8Len s.2) (totalLen s.1) s.1 (splitOnChar ' ' s.2)).flatMap rustWords
      = rustWords s.2
    ∧ (s.1.length = 1 →
        chunkTexts (utf8Len s.2) (totalLen s.1) s.1 (splitOnChar ' ' s.2)
          = [joinW (rustWords s.2)]) := by
  have hne : s.1 ≠ [] := by
    intro hnil
    rw [hnil] at h
    simp [totalLen] at h
  constructor
  · exact chunkTexts_words (utf8Len s.2) (totalLen s.1) s.1 (splitOnChar ' ' s.2) hne
      (splitOnChar_not_mem ' ' s.2)
  · intro hlen
    obtain ⟨cd, hcd⟩ := List.length_eq_one.mp hlen
    rw [hcd]
    unfold rustWords
    exact chunkTexts_single (utf8Len s.2) (totalLen [cd]) cd (splitOnChar ' ' s.2)

/-- Witness for C2 at a concrete sentence with two fragment positions. -/
theorem claim_C2_word_conservation_witness :
    (chunkTexts (utf8Len ("ab cd ef".toList)) (totalLen [⟨0, 0, 4⟩, ⟨0, 1, 4⟩])
        [⟨0, 0, 4⟩, ⟨0, 1, 4⟩] (splitOnChar ' ' "ab cd ef".toList)).flatMap rustWords
      = rustWords ("ab cd ef".toList) :=
  (claim_C2_word_conservation ([⟨0, 0, 4⟩, ⟨0, 1, 4⟩], "ab cd ef".toList) (by decide)).1

/-- One non-empty chunk encountered by the reconstruction scan: its position,
its trimmed text, and whether a fullstop terminated it (that is, whether the
split of its line produced a later piece). -/
structure ChunkInfo where
  bn : Nat
  ln : Nat
  text : List Char
  terminal : Bool
deriving DecidableEq

/-- The non-empty chunks of one split line, in order, with terminal flags. -/
def chunkInfos (bn ln : Nat) : List (List Char) → List ChunkInfo
  | [] => []
  | chunk :: rest =>
    if chunk = [] then chunkInfos bn ln rest
    else ⟨bn, ln, rustTrim chunk, !rest.isEmpty⟩ :: chunkInfos bn ln rest

/-- One reconstruction step on a single non-empty chunk. -/
def stepChunk (st : ReconState) (ci : ChunkInfo) : ReconState :=
  let descs := st.descs ++ [⟨ci.bn, ci.ln, utf8Len ci.text⟩]
  let cur := st.cur ++ ci.text
  if ci.terminal then ⟨st.all ++ [(descs, cur ++ ['.'])], [], []⟩
  else ⟨st.all, descs, cur ++ [' ']⟩

/-- The descriptor recorded for a chunk. -/
def infoDesc (ci : ChunkInfo) : ChunkDesc :=
  ⟨ci.bn, ci.ln, utf8Len ci.text⟩

/-- All non-empty chunks of a document in reading order. -/
def docInfos (vtt : Vtt) : List ChunkInfo :=
  vtt.blocks.enum.flatMap (fun bp =>
    bp.2.text_lines.enum.flatMap (fun lp =>
      chunkInfos bp.1 lp.1 (splitOnChar '.' (rustTrim lp.2))))

theorem foldl_flatMap {α β γ : Type} (g : γ → List α) (f : β → α → β) :
    ∀ (xs : List γ) (init : β),
      (xs.flatMap g).foldl f init = xs.foldl (fun acc x => (g x).foldl f acc) init := by
  intro xs
  induction xs with
  | nil => intro init; rfl
  | cons x xs ih =>
    intro init
    simp only [List.flatMap_cons, List.foldl_append, List.foldl_cons]
    exact ih _

theorem foldl_ext {α β : Type} (f g : β → α → β) (h : ∀ acc x, f acc x = g acc x) :
    ∀ (l : List α) (init : β), l.foldl f init = l.foldl g init := by
  intro l
  induction l with
  | nil => intro init; rfl
  | cons x xs ih =>
    intro init
    simp only [List.foldl_cons, h]
    exact ih _

theorem processChunks_cons (bn ln : Nat) (chunk : List Char) (rest : List (List Char))
    (st : ReconState) :
    processChunks bn ln (chunk :: rest) st
      = processChunks bn ln rest
          (if chunk = [] then st
           else if rest = [] then
             ⟨st.all, st.descs ++ [⟨bn, ln, utf8Len (rustTrim chunk)⟩],
              st.cur ++ rustTrim chunk ++ [' ']⟩
           else
             ⟨st.all ++ [(st.descs ++ [⟨bn, ln, utf8Len (rustTrim chunk)⟩],
                st.cur ++ rustTrim chunk ++ ['.'])], [], []⟩) := rfl

theorem chunkInfos_cons (bn ln : Nat) (chunk : List Char) (rest : List (List Char)) :
    chunkInfos bn ln (chunk :: rest)
      = if chunk = [] then chunkInfos bn ln rest
        else ⟨bn, ln, rustTrim chunk, !rest.isEmpty⟩ :: chunkInfos bn ln rest := rfl

theorem processChunks_eq_foldl (bn ln : Nat) :
    ∀ (cs : List (List Char)) (st : ReconState),
      processChunks bn ln cs st = (chunkInfos bn ln cs).foldl stepChunk st := by
  intro cs
  induction cs with
  | nil => intro st; rfl
  | cons chunk rest ih =>
    intro st
    rw [processChunks_cons, chunkInfos_cons]
    by_cases hc : chunk = []
    · rw [if_pos hc, if_pos hc, ih]
    · rw [if_neg hc, if_neg hc, List.foldl_cons]
      have hst : (if rest = [] then
             (⟨st.all, st.descs ++ [⟨bn, ln, utf8Len (rustTrim chunk)⟩],
              st.cur ++ rustTrim chunk ++ [' ']⟩ : ReconState)
           else
             ⟨st.all ++ [(st.descs ++ [⟨bn, ln, utf8Len (rustTrim chunk)⟩],
                st.cur ++ rustTrim chunk ++ ['.'])], [], []⟩)
          = stepChunk st ⟨bn, ln, rustTrim chunk, !rest.isEmpty⟩ := by
        cases rest with
        | nil => simp [stepChunk]
        | cons x xs => simp [stepChunk]
      rw [hst, ih]

theorem recon_eq_foldl (vtt : Vtt) :
    recontruct_sentences vtt = ((docInfos vtt).foldl stepChunk ⟨[], [], []⟩).all := by
  unfold recontruct_sentences docInfos
  rw [foldl_flatMap]
  have h : ∀ (st : ReconState) (bp : Nat × VttBlock),
      processBlock bp.1 st bp.2
        = (bp.2.text_lines.enum.flatMap fun lp =>
            chunkInfos bp.1 lp.1 (splitOnChar '.' (rustTrim lp.2))).foldl stepChunk st := by
    intro st bp
    unfold processBlock
    rw [foldl_flatMap]
    apply foldl_ext
    intro acc lp
    exact processChunks_eq_foldl bp.1 lp.1 _ acc
  rw [foldl_ext _ _ h vtt.blocks.enum ⟨[], [], []⟩]

theorem dropWhile_head_false (p : Char → Bool) :
    ∀ (l : List Char) (a : Char) (as : List Char),
      l.dropWhile p = a :: as → p a = false := by
  intro l
  induction l with
  | nil => intro a as h; simp at h
  | cons c cs ih =>
    intro a as h
    rw [List.dropWhile_cons] at h
    by_cases hc : p c = true
    · rw [if_pos hc] at h
      exact ih a as h
    · rw [if_neg hc] at h
      cases h
      simpa using hc

theorem dropWhile_of_head_false (p : Char → Bool) (a : Char) (as : List Char)
    (h : p a = false) : (a :: as).dropWhile p = a :: as := by
  rw [List.dropWhile_cons, h]
  simp

theorem rustTrimEnd_append (x : List Char) :
    x = rustTrimEnd x ++ (x.reverse.takeWhile rustIsWhitespace).reverse := by
  unfold rustTrimEnd
  have h := List.takeWhile_append_dropWhile rustIsWhitespace x.reverse
  calc x = x.reverse.reverse := (List.reverse_reverse x).symm
    _ = (x.reverse.takeWhile rustIsWhitespace ++ x.reverse.dropWhile rustIsWhitespace).reverse := by
        rw [h]
    _ = (x.reverse.dropWhile rustIsWhitespace).reverse
          ++ (x.reverse.takeWhile rustIsWhitespace).reverse := by
        rw [List.reverse_append]

theorem rustTrimEnd_getLast_false (x : List Char) (a : Char)
    (h : (rustTrimEnd x).getLast? = some a) : rustIsWhitespace a = false := by
  have h1 : (rustTrimEnd x).reverse.head? = some a := by
    rw [List.head?_reverse]
    exact h
  have h2 : (rustTrimEnd x).reverse = x.reverse.dropWhile rustIsWhitespace := by
    unfold rustTrimEnd
    rw [List.reverse_reverse]
  rw [h2] at h1
  cases hcase : x.reverse.dropWhile rustIsWhitespace with
  | nil => rw [hcase] at h1; simp at h1
  | cons b bs =>
    rw [hcase] at h1
    simp only [List.head?_cons, Option.some_inj] at h1
    subst h1
    exact dropWhile_head_false rustIsWhitespace x.reverse b bs hcase

theorem rustTrimEnd_head? (x : List Char) (a : Char)
    (h : (rustTrimEnd x).head? = some a) : x.head? = some a := by
  have hx := rustTrimEnd_append x
  cases hcase : rustTrimEnd x with
  | nil => rw [hcase] at h; simp at h
  | cons b bs =>
    rw [hcase] at h
    simp only [List.head?_cons, Option.some_inj] at h
    subst h
    rw [hx, hcase]
    rfl

theorem rustTrim_head_false (l : List Char) (a : Char)
    (h : (rustTrim l).head? = some a) : rustIsWhitespace a = false := by
  unfold rustTrim at h
  have h1 := rustTrimEnd_head? (rustTrimStart l) a h
  cases hcase : rustTrimStart l with
  | nil => rw [hcase] at h1; simp at h1
  | cons b bs =>
    rw [hcase] at h1
    simp only [List.head?_cons, Option.some_inj] at h1
    subst h1
    exact dropWhile_head_false rustIsWhitespace l b bs hcase

theorem rustTrim_getLast_false (l : List Char) (a : Char)
    (h : (rustTrim l).getLast? = some a) : rustIsWhitespace a = false :=
  rustTrimEnd_getLast_false (rustTrimStart l) a h

theorem rustTrimEnd_eq_self (l : List Char)
    (h : ∀ a, l.getLast? = some a → rustIsWhitespace a = false) :
    rustTrimEnd l = l := by
  unfold rustTrimEnd
  cases hcase : l.reverse with
  | nil =>
    have : l = [] := by
      have := congrArg List.reverse hcase
      simpa using this
    simp [this]
  | cons b bs =>
    have hb : l.getLast? = some b := by
      rw [← List.head?_reverse, hcase]
      rfl
    rw [dropWhile_of_head_false rustIsWhitespace b bs (h b hb), ← hcase,
      List.reverse_reverse]

theorem rustTrim_eq_self (l : List Char)
    (h1 : ∀ a, l.head? = some a → rustIsWhitespace a = false)
    (h2 : ∀ a, l.getLast? = some a → rustIsWhitespace a = false) :
    rustTrim l = l := by
  have hs : rustTrimStart l = l := by
    cases l with
    | nil => rfl
    | cons c cs =>
      exact dropWhile_of_head_false rustIsWhitespace c cs (h1 c rfl)
  unfold rustTrim
  rw [hs]
  exact rustTrimEnd_eq_self l h2

theorem rustTrim_idem (l : List Char) : rustTrim (rustTrim l) = rustTrim l :=
  rustTrim_eq_self (rustTrim l) (rustTrim_head_false l) (rustTrim_getLast_false l)

theorem joinW_append (a b : List (List Char)) : joinW (a ++ b) = joinW a ++ joinW b := by
  induction a with
  | nil => rfl
  | cons w ws ih => simp [joinW, ih]

theorem fragJoin_concat (xs : List (List Char)) (t : List Char) :
    fragJoin (xs ++ [t]) = joinW xs ++ t ++ ['.'] := by
  induction xs with
  | nil => simp [fragJoin, joinW]
  | cons x xs ih =>
    cases xs with
    | nil =>
      show x ++ ' ' :: fragJoin [t] = _
      simp [fragJoin, joinW]
    | cons y ys =>
      show x ++ ' ' :: fragJoin ((y :: ys) ++ [t]) = _
      rw [ih]
      simp [joinW, List.append_assoc]

theorem fragJoin_ends_dot : ∀ (fs : List (List Char)), ∃ u, fragJoin fs = u ++ ['.'] := by
  intro fs
  induction fs with
  | nil => exact ⟨[], rfl⟩
  | cons f fs ih =>
    cases fs with
    | nil => exact ⟨f, rfl⟩
    | cons g gs =>
      obtain ⟨u, hu⟩ := ih
      refine ⟨f ++ ' ' :: u, ?_⟩
      show f ++ ' ' :: fragJoin (g :: gs) = _
      rw [hu]
      simp

/-- The shape every emitted sentence has: its text is the fragment join of a
non-empty list of trimmed fragments whose byte lengths are exactly the
recorded chunk lengths. -/
def SentenceGood (s : Sentence) : Prop :=
  ∃ fs : List (List Char), fs ≠ [] ∧ (∀ f ∈ fs, rustTrim f = f) ∧
    s.2 = fragJoin fs ∧ s.1.map ChunkDesc.chunk_len = fs.map utf8Len

/-- The shape of the open accumulator: pending text is the space-trailed join
of the pending trimmed fragments. -/
def PendGood (st : ReconState) : Prop :=
  ∃ fs : List (List Char), (∀ f ∈ fs, rustTrim f = f) ∧
    st.cur = joinW fs ∧ st.descs.map ChunkDesc.chunk_len = fs.map utf8Len

theorem stepChunk_good (st : ReconState) (ci : ChunkInfo)
    (htext : rustTrim ci.text = ci.text)
    (hall : ∀ s ∈ st.all, SentenceGood s) (hpend : PendGood st) :
    (∀ s ∈ (stepChunk st ci).all, SentenceGood s) ∧ PendGood (stepChunk st ci) := by
  obtain ⟨fs, hf1, hf2, hf3⟩ := hpend
  have hmem : ∀ f ∈ fs ++ [ci.text], rustTrim f = f := by
    intro f hf
    rcases List.mem_append.mp hf with hf | hf
    · exact hf1 f hf
    · rw [List.mem_singleton] at hf
      rw [hf]
      exact htext
  have hmap : (st.descs ++ [(⟨ci.bn, ci.ln, utf8Len ci.text⟩ : ChunkDesc)]).map
        ChunkDesc.chunk_len
      = (fs ++ [ci.text]).map utf8Len := by
    simp [hf3]
  unfold stepChunk
  cases hterm : ci.terminal
  · simp only [Bool.false_eq_true, if_false]
    refine ⟨hall, fs ++ [ci.text], hmem, ?_, hmap⟩
    rw [joinW_append, hf2]
    simp [joinW]
  · simp only [if_true]
    constructor
    · intro s hs
      rcases List.mem_append.mp hs with hs | hs
      · exact hall s hs
      · rw [List.mem_singleton] at hs
        subst hs
        refine ⟨fs ++ [ci.text], by simp, hmem, ?_, hmap⟩
        show st.cur ++ ci.text ++ ['.'] = _
        rw [fragJoin_concat, hf2]
    · exact ⟨[], by simp, rfl, rfl⟩

theorem foldl_good (infos : List ChunkInfo) (htext : ∀ ci ∈ infos, rustTrim ci.text = ci.text) :
    ∀ st, (∀ s ∈ st.all, SentenceGood s) → PendGood st →
      (∀ s ∈ (infos.foldl stepChunk st).all, SentenceGood s)
        ∧ PendGood (infos.foldl stepChunk st) := by
  induction infos with
  | nil => intro st h1 h2; exact ⟨h1, h2⟩
  | cons ci infos ih =>
    intro st h1 h2
    rw [List.foldl_cons]
    have hstep := stepChunk_good st ci (htext ci (List.mem_cons_self ci infos)) h1 h2
    exact ih (fun c hc => htext c (List.mem_cons_of_mem ci hc)) _ hstep.1 hstep.2

theorem chunkInfos_spec (bn ln : Nat) (cs : List (List Char)) :
    ∀ ci ∈ chunkInfos bn ln cs, rustTrim ci.text = ci.text ∧ ci.bn = bn ∧ ci.ln = ln := by
  induction cs with
  | nil => intro ci h; simp [chunkInfos] at h
  | cons c cs ih =>
    intro ci h
    rw [chunkInfos_cons] at h
    by_cases hc : c = []
    · rw [if_pos hc] at h
      exact ih ci h
    · rw [if_neg hc] at h
      rcases List.mem_cons.mp h with h | h
      · subst h
        exact ⟨rustTrim_idem c, rfl, rfl⟩
      · exact ih ci h

theorem docInfos_text (vtt : Vtt) : ∀ ci ∈ docInfos vtt, rustTrim ci.text = ci.text := by
  intro ci h
  unfold docInfos at h
  rw [List.mem_flatMap] at h
  obtain ⟨bp, _, h⟩ := h
  rw [List.mem_flatMap] at h
  obtain ⟨lp, _, h⟩ := h
  exact (chunkInfos_spec bp.1 lp.1 _ ci h).1

theorem recon_good (vtt : Vtt) : ∀ s ∈ recontruct_sentences vtt, SentenceGood s := by
  rw [recon_eq_foldl]
  exact (foldl_good (docInfos vtt) (docInfos_text vtt) ⟨[], [], []⟩ (by simp)
    ⟨[], by simp, rfl, rfl⟩).1

/-- Reading order on fragment positions: earlier block, or same block and
earlier-or-equal line. -/
def posLe (c d : ChunkDesc) : Prop :=
  c.block_num < d.block_num ∨ (c.block_num = d.block_num ∧ c.line_num ≤ d.line_num)

/-- All descriptors held by a reconstruction state, emitted ones first. -/
def flatDescs (st : ReconState) : List ChunkDesc :=
  st.all.flatMap (fun s => s.1) ++ st.descs

theorem stepChunk_flatDescs (st : ReconState) (ci : ChunkInfo) :
    flatDescs (stepChunk st ci) = flatDescs st ++ [infoDesc ci] := by
  unfold stepChunk flatDescs infoDesc
  cases hterm : ci.terminal
  · simp
  · simp

theorem foldl_flatDescs (infos : List ChunkInfo) :
    ∀ st, flatDescs (infos.foldl stepChunk st) = flatDescs st ++ infos.map infoDesc := by
  induction infos with
  | nil => intro st; simp
  | cons ci infos ih =>
    intro st
    rw [List.foldl_cons, ih, stepChunk_flatDescs]
    simp

theorem chain'_const_pos (l : List ChunkDesc) (bn ln : Nat)
    (h : ∀ d ∈ l, d.block_num = bn ∧ d.line_num = ln) : List.Chain' posLe l := by
  induction l with
  | nil => simp
  | cons d ds ih =>
    rw [List.chain'_cons']
    constructor
    · intro y hy
      have hd := h d (List.mem_cons_self d ds)
      have hyy := h y (List.mem_cons_of_mem d (List.mem_of_mem_head? hy))
      right
      rw [hd.1, hyy.1, hd.2, hyy.2]
      exact ⟨rfl, Nat.le_refl ln⟩
    · exact ih (fun x hx => h x (List.mem_cons_of_mem d hx))

theorem chunkInfos_infoDesc_pos (bn ln : Nat) (cs : List (List Char)) :
    ∀ d ∈ (chunkInfos bn ln cs).map infoDesc, d.block_num = bn ∧ d.line_num = ln := by
  intro d hd
  rw [List.mem_map] at hd
  obtain ⟨ci, hci, rfl⟩ := hd
  obtain ⟨_, hbn, hln⟩ := chunkInfos_spec bn ln cs ci hci
  exact ⟨hbn, hln⟩

theorem lines_chain (bn : Nat) :
    ∀ (tls : List (List Char)) (k : Nat),
      List.Chain' posLe (((List.enumFrom k tls).flatMap
        (fun lp => chunkInfos bn lp.1 (splitOnChar '.' (rustTrim lp.2)))).map infoDesc)
      ∧ (∀ d ∈ ((List.enumFrom k tls).flatMap
          (fun lp => chunkInfos bn lp.1 (splitOnChar '.' (rustTrim lp.2)))).map infoDesc,
          d.block_num = bn ∧ k ≤ d.line_num) := by
  intro tls
  induction tls with
  | nil =>
    intro k
    refine ⟨by simp, ?_⟩
    intro d hd
    simp [List.enumFrom] at hd
  | cons line tls ih =>
    intro k
    have hstep : List.enumFrom k (line :: tls) = (k, line) :: List.enumFrom (k + 1) tls := rfl
    rw [hstep, List.flatMap_cons, List.map_append]
    obtain ⟨ihc, ihm⟩ := ih (k + 1)
    have hA := chunkInfos_infoDesc_pos bn k (splitOnChar '.' (rustTrim line))
    constructor
    · rw [List.chain'_append]
      refine ⟨chain'_const_pos _ bn k hA, ihc, ?_⟩
      intro x hx y hy
      have hxm := hA x (List.mem_of_mem_getLast? hx)
      have hym := ihm y (List.mem_of_mem_head? hy)
      right
      rw [hxm.1, hym.1, hxm.2]
      exact ⟨rfl, Nat.le_of_succ_le hym.2⟩
    · intro d hd
      rcases List.mem_append.mp hd with hd | hd
      · have h := hA d hd
        exact ⟨h.1, h.2 ▸ Nat.le_refl k⟩
      · have h := ihm d hd
        exact ⟨h.1, Nat.le_of_succ_le h.2⟩

theorem blocks_chain :
    ∀ (blocks : List VttBlock) (k : Nat),
      List.Chain' posLe (((List.enumFrom k blocks).flatMap
        (fun bp => bp.2.text_lines.enum.flatMap
          (fun lp => chunkInfos bp.1 lp.1 (splitOnChar '.' (rustTrim lp.2))))).map infoDesc)
      ∧ (∀ d ∈ ((List.enumFrom k blocks).flatMap
          (fun bp => bp.2.text_lines.enum.flatMap
            (fun lp => chunkInfos bp.1 lp.1 (splitOnChar '.' (rustTrim lp.2))))).map infoDesc,
          k ≤ d.block_num) := by
  intro blocks
  induction blocks with
  | nil =>
    intro k
    refine ⟨by simp, ?_⟩
    intro d hd
    simp [List.enumFrom] at hd
  | cons b bs ih =>
    intro k
    have hstep : List.enumFrom k (b :: bs) = (k, b) :: List.enumFrom (k + 1) bs := rfl
    rw [hstep, List.flatMap_cons, List.map_append]
    obtain ⟨ihc, ihm⟩ := ih (k + 1)
    obtain ⟨hAc, hAm⟩ := lines_chain k b.text_lines 0
    constructor
    · rw [List.chain'_append]
      refine ⟨hAc, ihc, ?_⟩
      intro x hx y hy
      have hxm := hAm x (List.mem_of_mem_getLast? hx)
      have hym := ihm y (List.mem_of_mem_head? hy)
      left
      rw [hxm.1]
      exact Nat.lt_of_succ_le hym
    · intro d hd
      rcases List.mem_append.mp hd with hd | hd
      · exact (hAm d hd).1 ▸ Nat.le_refl k
      · exact Nat.le_of_succ_le (ihm d hd)

theorem docInfos_chain (vtt : Vtt) :
    List.Chain' posLe ((docInfos vtt).map infoDesc) := by
  unfold docInfos
  exact (blocks_chain vtt.blocks 0).1

theorem recon_flatDescs (vtt : Vtt) :
    ∃ pending, (recontruct_sentences vtt).flatMap (fun s => s.1) ++ pending
      = (docInfos vtt).map infoDesc := by
  have h := foldl_flatDescs (docInfos vtt) ⟨[], [], []⟩
  refine ⟨((docInfos vtt).foldl stepChunk ⟨[], [], []⟩).descs, ?_⟩
  rw [recon_eq_foldl]
  unfold flatDescs at h
  simpa using h

theorem recon_chain (vtt : Vtt) :
    List.Chain' posLe ((recontruct_sentences vtt).flatMap (fun s => s.1)) := by
  obtain ⟨pending, hp⟩ := recon_flatDescs vtt
  have h := docInfos_chain vtt
  rw [← hp, List.chain'_append] at h
  exact h.1

/-- The descriptor and trimmed text recorded for a chunk. -/
def infoFrag (ci : ChunkInfo) : ChunkDesc × List Char :=
  (infoDesc ci, ci.text)

/-- The emitted sentences partition a chunk stream, in order: each sentence
takes one non-empty consecutive segment, its descriptors are the segment's
descriptors and its text is the fragment join of the segment's texts. -/
def matchFrags : List Sentence → List (ChunkDesc × List Char) → Prop
  | [], frs => frs = []
  | s :: ss, frs => ∃ seg rest, frs = seg ++ rest ∧ seg ≠ [] ∧
      s.1 = seg.map Prod.fst ∧ s.2 = fragJoin (seg.map Prod.snd) ∧ matchFrags ss rest

theorem matchFrags_snoc :
    ∀ (ss : List Sentence) (used : List (ChunkDesc × List Char)) (s : Sentence)
      (seg : List (ChunkDesc × List Char)),
      matchFrags ss used → seg ≠ [] → s.1 = seg.map Prod.fst →
      s.2 = fragJoin (seg.map Prod.snd) →
      matchFrags (ss ++ [s]) (used ++ seg) := by
  intro ss
  induction ss with
  | nil =>
    intro used s seg h hne h1 h2
    have h' : used = [] := h
    subst h'
    rw [List.nil_append]
    show matchFrags [s] seg
    exact ⟨seg, [], (List.append_nil seg).symm, hne, h1, h2, rfl⟩
  | cons s0 ss ih =>
    intro used s seg h hne h1 h2
    obtain ⟨seg0, rest0, hsplit, hne0, ha, hb, hrest⟩ := h
    refine ⟨seg0, rest0 ++ seg, ?_, hne0, ha, hb, ih rest0 s seg hrest hne h1 h2⟩
    rw [hsplit, List.append_assoc]

theorem foldl_match (infos : List ChunkInfo) :
    ∀ (st : ReconState) (used pendSeg : List (ChunkDesc × List Char)),
      matchFrags st.all used →
      st.descs = pendSeg.map Prod.fst →
      st.cur = joinW (pendSeg.map Prod.snd) →
      ∃ used' pend',
        used ++ pendSeg ++ infos.map infoFrag = used' ++ pend' ∧
        matchFrags (infos.foldl stepChunk st).all used' ∧
        (infos.foldl stepChunk st).descs = pend'.map Prod.fst ∧
        (infos.foldl stepChunk st).cur = joinW (pend'.map Prod.snd) := by
  induction infos with
  | nil =>
    intro st used pendSeg h1 h2 h3
    exact ⟨used, pendSeg, by simp, h1, h2, h3⟩
  | cons ci infos ih =>
    intro st used pendSeg h1 h2 h3
    rw [List.foldl_cons]
    cases hterm : ci.terminal
    case false =>
      have hstep : stepChunk st ci
          = ⟨st.all, st.descs ++ [infoDesc ci], st.cur ++ ci.text ++ [' ']⟩ := by
        unfold stepChunk
        rw [hterm]
        simp [infoDesc]
      obtain ⟨used', pend', hsum, hm, hd, hc⟩ :=
        ih (stepChunk st ci) used (pendSeg ++ [infoFrag ci])
          (by rw [hstep]; exact h1)
          (by
            rw [hstep]
            show st.descs ++ [infoDesc ci] = _
            simp [h2, infoFrag])
          (by
            rw [hstep]
            show st.cur ++ ci.text ++ [' '] = _
            rw [h3, List.map_append, joinW_append]
            simp [infoFrag, joinW])
      refine ⟨used', pend', ?_, hm, hd, hc⟩
      rw [← hsum]
      simp [List.append_assoc]
    case true =>
      have hstep : stepChunk st ci
          = ⟨st.all ++ [(st.descs ++ [infoDesc ci], st.cur ++ ci.text ++ ['.'])],
             [], []⟩ := by
        unfold stepChunk
        rw [hterm]
        simp [infoDesc]
      have hmatch : matchFrags
          (st.all ++ [(st.descs ++ [infoDesc ci], st.cur ++ ci.text ++ ['.'])])
          (used ++ (pendSeg ++ [infoFrag ci])) := by
        apply matchFrags_snoc st.all used _ (pendSeg ++ [infoFrag ci]) h1 (by simp)
        · show st.descs ++ [infoDesc ci] = _
          simp [h2, infoFrag]
        · show st.cur ++ ci.text ++ ['.'] = fragJoin ((pendSeg ++ [infoFrag ci]).map Prod.snd)
          rw [List.map_append]
          show _ = fragJoin (pendSeg.map Prod.snd ++ [ci.text])
          rw [fragJoin_concat, h3]
      obtain ⟨used', pend', hsum, hm, hd, hc⟩ :=
        ih (stepChunk st ci) (used ++ (pendSeg ++ [infoFrag ci])) []
          (by rw [hstep]; exact hmatch)
          (by rw [hstep]; rfl)
          (by rw [hstep]; rfl)
      refine ⟨used', pend', ?_, hm, hd, hc⟩
      rw [← hsum]
      simp [List.append_assoc]

theorem recon_matchFrags (vtt : Vtt) :
    ∃ used pend, (docInfos vtt).map infoFrag = used ++ pend
      ∧ matchFrags (recontruct_sentences vtt) used := by
  obtain ⟨used, pend, hsum, hm, _, _⟩ :=
    foldl_match (docInfos vtt) ⟨[], [], []⟩ [] [] rfl rfl rfl
  refine ⟨used, pend, ?_, ?_⟩
  · simpa using hsum
  · rw [recon_eq_foldl]
    exact hm

/-- Document with a whitespace-only chunk between fullstops ("a. .b"). -/
def exVttWs : Vtt := ⟨[⟨"b1".toList, "t1".toList, ["a. .b".toList]⟩]⟩

/-- Document with a non-ASCII fragment ("é."). -/
def exVttAcc : Vtt := ⟨[⟨"b1".toList, "t1".toList, ["é.".toList]⟩]⟩

/-- Document whose only text has no terminating fullstop. -/
def exVttTail : Vtt := ⟨[⟨"b1".toList, "t1".toList, ["Hello".toList]⟩]⟩

/-- Well-behaved two-line document. -/
def exVttOk : Vtt :=
  ⟨[⟨"b1".toList, "t1".toList, ["Hello there.".toList, "How are you.".toList]⟩]⟩

/-- C5: every emitted sentence's full text is the concatenation of its
trimmed fragments in order, each non-terminal fragment followed by a single
space and the terminal fragment by the fullstop, with the fragments' byte
lengths exactly the recorded chunk lengths; moreover the emitted sentence
sequence consumes, in order, an initial segment of the document's chunk
stream `docInfos` — which lists the non-empty chunks in reading order:
blocks in order, lines within a block in order, and the fullstop-separated
chunks of one line left to right — with each sentence's fragment positions
and text exactly those of its own consecutive chunks of that stream; and
the flattened fragment positions are non-decreasing in (block, line). -/
theorem claim_C5_fragment_shape_and_order (vtt : Vtt) :
    (∀ s ∈ recontruct_sentences vtt, ∃ fs : List (List Char),
      fs ≠ [] ∧ (∀ f ∈ fs, rustTrim f = f) ∧ s.2 = fragJoin fs ∧
      s.1.map ChunkDesc.chunk_len = fs.map utf8Len)
    ∧ (∃ used pend, (docInfos vtt).map infoFrag = used ++ pend
        ∧ matchFrags (recontruct_sentences vtt) used)
    ∧ List.Chain' posLe ((recontruct_sentences vtt).flatMap (fun s => s.1)) :=
  ⟨fun s hs => recon_good vtt s hs, recon_matchFrags vtt, recon_chain vtt⟩

/-- Witness for C5 at a concrete document. -/
theorem claim_C5_witness :
    (([⟨0, 0, 11⟩], "Hello there.".toList) : Sentence) ∈ recontruct_sentences exVttOk
    ∧ (∃ fs : List (List Char),
        fs ≠ [] ∧ (∀ f ∈ fs, rustTrim f = f) ∧
        ("Hello there.".toList : List Char) = fragJoin fs ∧
        ([⟨0, 0, 11⟩] : List ChunkDesc).map ChunkDesc.chunk_len = fs.map utf8Len) :=
  ⟨by decide, (claim_C5_fragment_shape_and_order exVttOk).1
    (([⟨0, 0, 11⟩], "Hello there.".toList) : Sentence) (by decide)⟩

/-- C4 counterexample: the document whose only line is "Hello" (no fullstop)
has fragment-bearing text, yet reconstruction emits no sentence at all — the
trailing unterminated fragment is not flushed. -/
theorem claim_C4_counterexample :
    recontruct_sentences exVttTail = [] ∧ docInfos exVttTail ≠ [] := by
  constructor
  · decide
  · decide

/-- C4 amended: a sentence still open at end of input is discarded, so every
emitted sentence ends with a fullstop-terminated fragment. -/
theorem claim_C4_amended (vtt : Vtt) :
    ∀ s ∈ recontruct_sentences vtt, ∃ u, s.2 = u ++ ['.'] := by
  intro s hs
  obtain ⟨fs, _, _, htext, _⟩ := recon_good vtt s hs
  obtain ⟨u, hu⟩ := fragJoin_ends_dot fs
  exact ⟨u, htext.trans hu⟩

/-- Witness for the amended C4 at a concrete document. -/
theorem claim_C4_amended_witness :
    (([⟨0, 0, 1⟩], "a.".toList) : Sentence) ∈ recontruct_sentences exVttWs
    ∧ (∃ u, ("a.".toList : List Char) = u ++ ['.']) :=
  ⟨by decide, claim_C4_amended exVttWs (([⟨0, 0, 1⟩], "a.".toList) : Sentence) (by decide)⟩

/-- C1 counterexample: on the line "a. .b" the whitespace-only middle chunk
passes the emptiness filter before trimming, so a sentence with total
fragment length zero is emitted, and reflowing the reconstructed sentences
hits the division by zero (modelled as `none`). -/
theorem claim_C1_counterexample :
    recontruct_sentences exVttWs
      = [([⟨0, 0, 1⟩], "a.".toList), ([⟨0, 0, 0⟩], ".".toList)]
    ∧ totalLen [⟨0, 0, 0⟩] = 0
    ∧ update_vtt exVttWs (recontruct_sentences exVttWs) = none := by
  refine ⟨by decide, rfl, by decide⟩

/-- No text line of the document has a whitespace-only chunk between
fullstops: every non-empty piece of the split still has non-empty trim. -/
def noWsChunks (vtt : Vtt) : Bool :=
  vtt.blocks.all (fun b => b.text_lines.all (fun l =>
    (splitOnChar '.' (rustTrim l)).all (fun c => c.isEmpty || !(rustTrim c).isEmpty)))

theorem chunkInfos_text_src (bn ln : Nat) (cs : List (List Char)) :
    ∀ ci ∈ chunkInfos bn ln cs, ∃ c ∈ cs, c ≠ [] ∧ ci.text = rustTrim c := by
  induction cs with
  | nil => intro ci h; simp [chunkInfos] at h
  | cons c cs ih =>
    intro ci h
    rw [chunkInfos_cons] at h
    by_cases hc : c = []
    · rw [if_pos hc] at h
      obtain ⟨c', hc', h1, h2⟩ := ih ci h
      exact ⟨c', List.mem_cons_of_mem c hc', h1, h2⟩
    · rw [if_neg hc] at h
      rcases List.mem_cons.mp h with h | h
      · subst h
        exact ⟨c, List.mem_cons_self c cs, hc, rfl⟩
      · obtain ⟨c', hc', h1, h2⟩ := ih ci h
        exact ⟨c', List.mem_cons_of_mem c hc', h1, h2⟩

theorem mem_of_mem_enumFrom {α : Type} :
    ∀ (l : List α) (k : Nat) (p : Nat × α), p ∈ List.enumFrom k l → p.2 ∈ l := by
  intro l
  induction l with
  | nil => intro k p h; simp [List.enumFrom] at h
  | cons x xs ih =>
    intro k p h
    have hstep : List.enumFrom k (x :: xs) = (k, x) :: List.enumFrom (k + 1) xs := rfl
    rw [hstep] at h
    rcases List.mem_cons.mp h with h | h
    · rw [h]
      exact List.mem_cons_self x xs
    · exact List.mem_cons_of_mem x (ih (k + 1) p h)

theorem docInfos_text_ne (vtt : Vtt) (h : noWsChunks vtt = true) :
    ∀ ci ∈ docInfos vtt, ci.text ≠ [] := by
  intro ci hci
  unfold docInfos at hci
  rw [List.mem_flatMap] at hci
  obtain ⟨bp, hbp, hci⟩ := hci
  rw [List.mem_flatMap] at hci
  obtain ⟨lp, hlp, hci⟩ := hci
  obtain ⟨c, hc, hcne, hctext⟩ := chunkInfos_text_src bp.1 lp.1 _ ci hci
  have hb : bp.2 ∈ vtt.blocks := mem_of_mem_enumFrom vtt.blocks 0 bp hbp
  have hl : lp.2 ∈ bp.2.text_lines := mem_of_mem_enumFrom bp.2.text_lines 0 lp hlp
  unfold noWsChunks at h
  rw [List.all_eq_true] at h
  have h1 := h bp.2 hb
  rw [List.all_eq_true] at h1
  have h2 := h1 lp.2 hl
  rw [List.all_eq_true] at h2
  have h3 := h2 c hc
  rw [Bool.or_eq_true] at h3
  rcases h3 with h3 | h3
  · rw [List.isEmpty_iff] at h3
    exact absurd h3 hcne
  · rw [Bool.not_eq_eq_eq_not, Bool.not_true] at h3
    rw [hctext]
    intro hnil
    rw [hnil] at h3
    simp at h3

theorem foldl_pos (infos : List ChunkInfo) (h : ∀ ci ∈ infos, ci.text ≠ []) :
    ∀ st, (∀ s ∈ st.all, 0 < totalLen s.1) →
      ∀ s ∈ (infos.foldl stepChunk st).all, 0 < totalLen s.1 := by
  induction infos with
  | nil => intro st h1; exact h1
  | cons ci infos ih =>
    intro st h1
    rw [List.foldl_cons]
    apply ih (fun c hc => h c (List.mem_cons_of_mem ci hc))
    intro s hs
    unfold stepChunk at hs
    cases hterm : ci.terminal
    · rw [hterm] at hs
      simp only [Bool.false_eq_true, if_false] at hs
      exact h1 s hs
    · rw [hterm] at hs
      simp only [if_true] at hs
      rcases List.mem_append.mp hs with hs | hs
      · exact h1 s hs
      · rw [List.mem_singleton] at hs
        subst hs
        rw [totalLen_eq_sum]
        simp only [List.map_append, List.sum_append]
        have hpos := utf8Len_pos ci.text (h ci (List.mem_cons_self ci infos))
        simp only [List.map_cons, List.map_nil, List.sum_cons, List.sum_nil]
        omega

/-- C1 amended: whenever no line of the document contains a whitespace-only
chunk between fullstops, every emitted sentence has positive total fragment
length (and the target-size division is safe); without that condition a
zero-total sentence can be emitted, as the counterexample shows. -/
theorem claim_C1_amended (vtt : Vtt) (h : noWsChunks vtt = true) :
    ∀ s ∈ recontruct_sentences vtt, 0 < totalLen s.1 := by
  rw [recon_eq_foldl]
  exact foldl_pos (docInfos vtt) (docInfos_text_ne vtt h) ⟨[], [], []⟩ (by simp)

/-- Witness for the amended C1 at a concrete document. -/
theorem claim_C1_amended_witness :
    noWsChunks exVttOk = true
    ∧ 0 < totalLen ([⟨0, 0, 11⟩] : List ChunkDesc) :=
  ⟨by decide, claim_C1_amended exVttOk (by decide) ([⟨0, 0, 11⟩], "Hello there.".toList)
    (by decide)⟩

/-- C3 counterexample: with character counts in place of byte counts the
stored fragment-length invariant fails on the document "é." — the stored
chunk length is 2 (UTF-8 bytes) while the only fragment decomposition of the
sentence text has a fragment of character length 1. -/
theorem claim_C3_counterexample :
    ¬ (∀ vtt : Vtt, ∀ s ∈ recontruct_sentences vtt, ∃ fs : List (List Char),
        fs ≠ [] ∧ s.2 = fragJoin fs ∧
        s.1.map ChunkDesc.chunk_len = fs.map List.length) := by
  intro h
  have hs : (([⟨0, 0, 2⟩], "é.".toList) : Sentence) ∈ recontruct_sentences exVttAcc := by
    decide
  obtain ⟨fs, hne, htext, hlen⟩ := h exVttAcc _ hs
  have hlen1 : fs.length = 1 := by
    have := congrArg List.length hlen
    simpa using this.symm
  obtain ⟨f, hf⟩ := List.length_eq_one.mp hlen1
  subst hf
  have hflen : f.length = 2 := by
    simpa using hlen.symm
  have hlen2 := congrArg List.length htext
  rw [fragJoin] at hlen2
  simp [hflen] at hlen2

/-- C3 amended: both lengths in the target-size formula are UTF-8 byte
lengths: every stored fragment length is the byte length of the trimmed
original chunk, and the reflow target size for each fragment is
`newChunkSize` of that byte length, the replacement text's byte length and
the byte-length total. -/
theorem claim_C3_amended (vtt : Vtt) (T : List Char) :
    ∀ s ∈ recontruct_sentences vtt, ∃ fs : List (List Char),
      fs ≠ [] ∧ (∀ f ∈ fs, rustTrim f = f) ∧ s.2 = fragJoin fs ∧
      s.1.map ChunkDesc.chunk_len = fs.map utf8Len ∧
      s.1.map (fun cd => newChunkSize cd.chunk_len (utf8Len T) (totalLen s.1))
        = fs.map (fun f => utf8Len f * utf8Len T / totalLen s.1) := by
  intro s hs
  obtain ⟨fs, h1, h2, h3, h4⟩ := recon_good vtt s hs
  refine ⟨fs, h1, h2, h3, h4, ?_⟩
  have hmm : s.1.map (fun cd => newChunkSize cd.chunk_len (utf8Len T) (totalLen s.1))
      = (s.1.map ChunkDesc.chunk_len).map
          (fun n => newChunkSize n (utf8Len T) (totalLen s.1)) := by
    rw [List.map_map]
    rfl
  rw [hmm, h4, List.map_map]
  rfl

/-- Witness for the amended C3 at a concrete document and replacement. -/
theorem claim_C3_amended_witness :
    (([⟨0, 0, 2⟩], "é.".toList) : Sentence) ∈ recontruct_sentences exVttAcc
    ∧ (∃ fs : List (List Char),
        fs ≠ [] ∧ (∀ f ∈ fs, rustTrim f = f) ∧
        ("é.".toList : List Char) = fragJoin fs ∧
        ([⟨0, 0, 2⟩] : List ChunkDesc).map ChunkDesc.chunk_len = fs.map utf8Len ∧
        ([⟨0, 0, 2⟩] : List ChunkDesc).map
            (fun cd => newChunkSize cd.chunk_len (utf8Len ("xy".toList))
              (totalLen [⟨0, 0, 2⟩]))
          = fs.map (fun f => utf8Len f * utf8Len ("xy".toList) / totalLen [⟨0, 0, 2⟩])) :=
  ⟨by decide, claim_C3_amended exVttAcc ("xy".toList)
    (([⟨0, 0, 2⟩], "é.".toList) : Sentence) (by decide)⟩

/-- The frame of one block: identifier, timecode and line count. -/
def blockShape (b : VttBlock) : List Char × List Char × Nat :=
  (b._id, b.timecode, b.text_lines.length)

/-- Frame equality of two documents: same block count and, position by
position, same identifier, timecode and line count. -/
def sameShape (v w : Vtt) : Prop :=
  w.blocks.length = v.blocks.length ∧
  ∀ i, (w.blocks.get? i).map blockShape = (v.blocks.get? i).map blockShape

theorem sameShape_refl (v : Vtt) : sameShape v v :=
  ⟨rfl, fun _ => rfl⟩

theorem sameShape_trans {u v w : Vtt} (h1 : sameShape u v) (h2 : sameShape v w) :
    sameShape u w :=
  ⟨h2.1.trans h1.1, fun i => (h2.2 i).trans (h1.2 i)⟩

theorem appendChunk_shape (v : Vtt) (bn ln : Nat) (txt : List Char) (out : Vtt)
    (h : appendChunk v bn ln txt = some out) : sameShape v out := by
  unfold appendChunk at h
  split at h
  · cases h
  · rename_i b hb
    split at h
    · cases h
    · rename_i l hl
      simp only [Option.some_inj] at h
      subst h
      constructor
      · simp [List.length_set]
      · intro i
        simp only [List.get?_set]
        by_cases hi : bn = i
        · subst hi
          rw [if_pos rfl, hb]
          simp [blockShape, List.length_set]
        · rw [if_neg hi]

theorem writeChunks_shape :
    ∀ (descs : List ChunkDesc) (txts : List (List Char)) (v out : Vtt),
      writeChunks v descs txts = some out → sameShape v out := by
  intro descs
  induction descs with
  | nil =>
    intro txts v out h
    unfold writeChunks at h
    simp only [Option.some_inj] at h
    subst h
    exact sameShape_refl v
  | cons cd rest ih =>
    intro txts v out h
    unfold writeChunks at h
    split at h
    · simp only [Option.some_inj] at h
      subst h
      exact sameShape_refl v
    · rename_i t ts
      split at h
      · cases h
      · rename_i v1 ha
        exact sameShape_trans (appendChunk_shape v cd.block_num cd.line_num t v1 ha)
          (ih ts v1 out h)

theorem placeSentence_shape (v : Vtt) (s : Sentence) (out : Vtt)
    (h : placeSentence v s = some out) : sameShape v out := by
  unfold placeSentence at h
  by_cases hc : s.1 ≠ [] ∧ totalLen s.1 = 0
  · rw [if_pos hc] at h
    cases h
  · rw [if_neg hc] at h
    exact writeChunks_shape s.1 _ v out h

theorem foldl_place_none (ss : List Sentence) :
    ss.foldl (fun acc s => acc.bind (fun v' => placeSentence v' s)) none = none := by
  induction ss with
  | nil => rfl
  | cons s ss ih => simpa using ih

theorem foldl_place_shape :
    ∀ (ss : List Sentence) (v out : Vtt),
      ss.foldl (fun acc s => acc.bind (fun v' => placeSentence v' s)) (some v) = some out →
      sameShape v out := by
  intro ss
  induction ss with
  | nil =>
    intro v out h
    simp only [List.foldl_nil, Option.some_inj] at h
    subst h
    exact sameShape_refl v
  | cons s ss ih =>
    intro v out h
    rw [List.foldl_cons] at h
    simp only [Option.some_bind] at h
    cases hp : placeSentence v s with
    | none =>
      rw [hp] at h
      rw [foldl_place_none] at h
      cases h
    | some v1 =>
      rw [hp] at h
      exact sameShape_trans (placeSentence_shape v s v1 hp) (ih v1 out h)

theorem blankLines_shape (v : Vtt) : sameShape v (blankLines v) := by
  constructor
  · simp [blankLines]
  · intro i
    unfold blankLines
    simp only [List.get?_map]
    cases v.blocks.get? i with
    | none => rfl
    | some b => simp [blockShape]

/-- C8: reflow only blanks lines and appends text at addressed positions, so
any produced output document has the same block count and, block by block,
the same identifier, timecode and line count as the input; with an empty
sentence list it succeeds and returns exactly the blanked document, whose
every line is empty. -/
theorem claim_C8_frame (v : Vtt) (ss : List Sentence) :
    (∀ out, update_vtt v ss = some out →
      out.blocks.length = v.blocks.length ∧
      ∀ i, (out.blocks.get? i).map blockShape = (v.blocks.get? i).map blockShape)
    ∧ update_vtt v [] = some (blankLines v)
    ∧ (∀ b ∈ (blankLines v).blocks, ∀ l ∈ b.text_lines, l = []) := by
  refine ⟨?_, rfl, ?_⟩
  · intro out h
    unfold update_vtt at h
    have hshape := sameShape_trans (blankLines_shape v) (foldl_place_shape ss (blankLines v) out h)
    exact hshape
  · intro b hb l hl
    unfold blankLines at hb
    rw [List.mem_map] at hb
    obtain ⟨b0, _, rfl⟩ := hb
    simp only [List.mem_map] at hl
    obtain ⟨_, _, rfl⟩ := hl
    rfl

/-- Witness for C8 at a concrete document and the empty sentence list. -/
theorem claim_C8_witness :
    update_vtt exVttOk [] = some (blankLines exVttOk)
    ∧ (blankLines exVttOk).blocks.length = exVttOk.blocks.length :=
  ⟨(claim_C8_frame exVttOk []).2.1,
   ((claim_C8_frame exVttOk []).1 (blankLines exVttOk) (by rfl)).1⟩

theorem writeTextLine_Ltr (line : List Char) : writeTextLine .Ltr line = rustTrim line := rfl

theorem writeTextLine_Rtl (line : List Char) :
    writeTextLine .Rtl line
      = (if charIsAscii ((rustTrim
            (if charIsAscii ((rustTrim line).headD 'a') then rlm :: rustTrim line
             else rustTrim line)).getLastD 'a')
         then (if charIsAscii ((rustTrim line).headD 'a') then rlm :: rustTrim line
               else rustTrim line) ++ [rlm]
         else (if charIsAscii ((rustTrim line).headD 'a') then rlm :: rustTrim line
               else rustTrim line)) := rfl

theorem getLast?_cons_of_ne (c : Char) (l : List Char) (h : l ≠ []) :
    (c :: l).getLast? = l.getLast? := by
  cases l with
  | nil => exact absurd rfl h
  | cons b bs => exact List.getLast?_cons_cons

theorem getLastD_cons_of_ne (c d : Char) (l : List Char) (h : l ≠ []) :
    (c :: l).getLastD d = l.getLastD d := by
  cases l with
  | nil => exact absurd rfl h
  | cons b bs =>
    rw [List.getLastD_eq_getLast?, List.getLastD_eq_getLast?, List.getLast?_cons_cons]

theorem rustTrim_rlm_cons (l : List Char) (hne : l ≠ []) (htr : rustTrim l = l) :
    rustTrim (rlm :: l) = rlm :: l := by
  apply rustTrim_eq_self
  · intro a ha
    simp only [List.head?_cons, Option.some_inj] at ha
    subst ha
    decide
  · intro a ha
    rw [getLast?_cons_of_ne rlm l hne] at ha
    exact rustTrim_getLast_false l a (by rw [htr]; exact ha)

/-- C7: for right-to-left output of a line with non-empty trim, a mark is
prepended exactly when the first character is ASCII and appended exactly when
the last character is ASCII; left-to-right output is the trimmed line
unchanged. -/
theorem claim_C7_direction (line : List Char) (h : rustTrim line ≠ []) :
    writeTextLine .Rtl line
      = (if charIsAscii ((rustTrim line).headD 'a') then [rlm] else [])
        ++ rustTrim line
        ++ (if charIsAscii ((rustTrim line).getLastD 'a') then [rlm] else [])
    ∧ writeTextLine .Ltr line = rustTrim line := by
  refine ⟨?_, rfl⟩
  have hidem := rustTrim_idem line
  rw [writeTextLine_Rtl]
  by_cases hh : charIsAscii ((rustTrim line).headD 'a')
  · rw [if_pos hh, if_pos hh]
    rw [rustTrim_rlm_cons (rustTrim line) h hidem]
    rw [getLastD_cons_of_ne rlm 'a' (rustTrim line) h]
    by_cases hl : charIsAscii ((rustTrim line).getLastD 'a')
    · rw [if_pos hl, if_pos hl]
      simp
    · rw [if_neg hl, if_neg hl]
      simp
  · rw [if_neg hh, if_neg hh]
    rw [hidem]
    by_cases hl : charIsAscii ((rustTrim line).getLastD 'a')
    · rw [if_pos hl, if_pos hl]
      simp
    · rw [if_neg hl, if_neg hl]
      simp

/-- Witness for C7 at a concrete ASCII line. -/
theorem claim_C7_witness :
    rustTrim ("abc".toList) ≠ []
    ∧ (writeTextLine .Rtl ("abc".toList)
        = (if charIsAscii ((rustTrim ("abc".toList)).headD 'a') then [rlm] else [])
          ++ rustTrim ("abc".toList)
          ++ (if charIsAscii ((rustTrim ("abc".toList)).getLastD 'a') then [rlm] else [])
      ∧ writeTextLine .Ltr ("abc".toList) = rustTrim ("abc".toList)) :=
  ⟨by decide, claim_C7_direction ("abc".toList) (by decide)⟩

/-- C9: the right-to-left step is the identity on a line that already starts
and ends with the U+200F mark: no further marks are added. -/
theorem claim_C9_idempotent (line : List Char) (h1 : line.head? = some rlm)
    (h2 : line.getLast? = some rlm) :
    writeTextLine .Rtl line = line := by
  have htr : rustTrim line = line :=
    rustTrim_eq_self line
      (fun a ha => by rw [h1] at ha; cases ha; decide)
      (fun a ha => by rw [h2] at ha; cases ha; decide)
  have hh : charIsAscii (line.headD 'a') = false := by
    rw [List.headD_eq_head?, h1]
    decide
  have hl : charIsAscii (line.getLastD 'a') = false := by
    rw [List.getLastD_eq_getLast?, h2]
    decide
  rw [writeTextLine_Rtl, htr]
  simp only [hh, Bool.false_eq_true, if_false]
  rw [htr]
  simp only [hl, Bool.false_eq_true, if_false]

/-- Witness for C9 at the one-mark line. -/
theorem claim_C9_witness :
    (([rlm] : List Char).head? = some rlm) ∧ writeTextLine .Rtl [rlm] = [rlm] :=
  ⟨rfl, claim_C9_idempotent [rlm] rfl rfl⟩

/-- C10: a line whose trim is empty is written as the single mark U+200F in
right-to-left mode (the empty line takes the ASCII fallback on the first
check and the non-ASCII mark on the second), and as the empty line in
left-to-right mode. -/
theorem claim_C10_blank_line (line : List Char) (h : rustTrim line = []) :
    writeTextLine .Rtl line = [rlm] ∧ writeTextLine .Ltr line = [] := by
  constructor
  · rw [writeTextLine_Rtl, h]
    decide
  · show rustTrim line = []
    exact h

/-- Witness for C10 at an all-blank line. -/
theorem claim_C10_witness :
    rustTrim ("  ".toList) = []
    ∧ (writeTextLine .Rtl ("  ".toList) = [rlm] ∧ writeTextLine .Ltr ("  ".toList) = []) :=
  ⟨by decide, claim_C10_blank_line ("  ".toList) (by decide)⟩

/-- A text line that survives a round trip unchanged: already trimmed,
non-empty, and not classifiable as blank line, header, block start or
timecode on re-parse. -/
def wfLineB (l : List Char) : Bool :=
  decide (rustTrim l = l) && !l.isEmpty && !containsArrow l && !isNewBlockB l
    && decide (l ≠ webvttChars)

/-- A block whose written form re-parses to itself: the identifier matches
the block pattern, the timecode is empty or a non-block-start line holding
the arrow token, and every text line is well formed. -/
def wfBlockB (b : VttBlock) : Bool :=
  isNewBlockB b._id
    && (b.timecode.isEmpty || (containsArrow b.timecode && !isNewBlockB b.timecode))
    && b.text_lines.all wfLineB

/-- Well-formedness of a whole parsed document for round-trip stability. -/
def vttWellFormed (v : Vtt) : Bool :=
  v.blocks.all wfBlockB

theorem hex_not_ws (c : Char) (h : isHexDigitB c = true) : rustIsWhitespace c = false := by
  rw [Bool.eq_false_iff]
  intro hw
  simp only [rustIsWhitespace, Bool.or_eq_true, Bool.and_eq_true, decide_eq_true_eq,
    beq_iff_eq] at hw
  simp only [isHexDigitB, Bool.or_eq_true, Bool.and_eq_true, decide_eq_true_eq] at h
  omega

theorem newblock_head (l : List Char) (h : isNewBlockB l = true) :
    ∃ c cs, l = c :: cs ∧ isHexDigitB c = true := by
  unfold isNewBlockB at h
  cases l with
  | nil => simp [dropHex] at h
  | cons c cs =>
    refine ⟨c, cs, rfl, ?_⟩
    by_cases hc : isHexDigitB c = true
    · exact hc
    · exfalso
      have hnone : dropHex 8 (c :: cs) = none := by
        show (if isHexDigitB c then dropHex 7 cs else none) = none
        rw [if_neg hc]
      rw [hnone] at h
      simp at h

theorem newblock_not_blank (l : List Char) (h : isNewBlockB l = true) :
    isBlankB l = false := by
  obtain ⟨c, cs, rfl, hc⟩ := newblock_head l h
  simp [isBlankB, List.all_cons, hex_not_ws c hc]

theorem newblock_ne_webvtt (l : List Char) (h : isNewBlockB l = true) :
    l ≠ webvttChars := by
  intro he
  rw [he] at h
  exact absurd h (by decide)

theorem arrowStart_dash (c : Char) (cs : List Char) (h : isArrowStart (c :: cs) = true) :
    c = '-' := by
  cases cs with
  | nil => simp [isArrowStart] at h
  | cons b bs =>
    cases bs with
    | nil => simp [isArrowStart] at h
    | cons d ds =>
      simp only [isArrowStart, Bool.and_eq_true, decide_eq_true_eq] at h
      exact h.1.1

theorem arrow_not_blank : ∀ (l : List Char), containsArrow l = true → isBlankB l = false := by
  intro l
  induction l with
  | nil => intro h; simp [containsArrow] at h
  | cons c cs ih =>
    intro h
    rw [show containsArrow (c :: cs) = (isArrowStart (c :: cs) || containsArrow cs) from rfl,
      Bool.or_eq_true] at h
    rcases h with h | h
    · have hc := arrowStart_dash c cs h
      subst hc
      unfold isBlankB
      rw [List.all_cons, show rustIsWhitespace '-' = false from by decide, Bool.false_and]
    · unfold isBlankB
      rw [List.all_cons]
      have h2 : cs.all rustIsWhitespace = false := ih h
      rw [h2, Bool.and_false]

theorem arrow_ne_webvtt (l : List Char) (h : containsArrow l = true) : l ≠ webvttChars := by
  intro he
  rw [he] at h
  exact absurd h (by decide)

theorem trimmed_not_blank (l : List Char) (htr : rustTrim l = l) (hne : l ≠ []) :
    isBlankB l = false := by
  cases l with
  | nil => exact absurd rfl hne
  | cons c cs =>
    have hc : rustIsWhitespace c = false :=
      rustTrim_head_false (c :: cs) c (by rw [htr]; rfl)
    simp [isBlankB, List.all_cons, hc]

theorem parseStep_skip (st : Option VttBlock × List VttBlock) (line : List Char)
    (h : isBlankB line = true ∨ line = webvttChars) : parseStep st line = st := by
  unfold parseStep
  rw [if_pos h]

theorem parseStep_newblock (st : Option VttBlock × List VttBlock) (line : List Char)
    (h1 : isBlankB line = false) (h2 : line ≠ webvttChars) (h3 : isNewBlockB line = true) :
    parseStep st line = (some ⟨line, [], []⟩, parseFinish st) := by
  unfold parseStep
  rw [if_neg (by simp [h1, h2]), if_pos h3]
  rfl

theorem parseStep_timecode (st : Option VttBlock × List VttBlock) (line : List Char)
    (h1 : isBlankB line = false) (h2 : line ≠ webvttChars) (h3 : isNewBlockB line = false)
    (h4 : containsArrow line = true) :
    parseStep st line = (st.1.map (fun b => { b with timecode := line }), st.2) := by
  unfold parseStep
  rw [if_neg (by simp [h1, h2]), if_neg (by simp [h3]), if_pos h4]

theorem parseStep_text (st : Option VttBlock × List VttBlock) (line : List Char)
    (h1 : isBlankB line = false) (h2 : line ≠ webvttChars) (h3 : isNewBlockB line = false)
    (h4 : containsArrow line = false) :
    parseStep st line
      = (st.1.map (fun b => { b with text_lines := b.text_lines ++ [rustTrim line] }), st.2) := by
  unfold parseStep
  rw [if_neg (by simp [h1, h2]), if_neg (by simp [h3]), if_neg (by simp [h4])]

theorem parse_textlines :
    ∀ (tls : List (List Char)), (∀ l ∈ tls, wfLineB l = true) →
      ∀ (bb : VttBlock) (acc : List VttBlock),
        List.foldl parseStep (some bb, acc) tls
          = (some { bb with text_lines := bb.text_lines ++ tls }, acc) := by
  intro tls
  induction tls with
  | nil =>
    intro _ bb acc
    rw [List.foldl_nil, List.append_nil]
  | cons l tls ih =>
    intro hwf bb acc
    have hl := hwf l (List.mem_cons_self l tls)
    simp only [wfLineB, Bool.and_eq_true, decide_eq_true_eq, Bool.not_eq_true'] at hl
    obtain ⟨⟨⟨⟨htrim, hne⟩, harrow⟩, hnb⟩, hweb⟩ := hl
    have hne' : l ≠ [] := by
      intro hn
      rw [hn] at hne
      simp at hne
    rw [List.foldl_cons,
      parseStep_text (some bb, acc) l (trimmed_not_blank l htrim hne') hweb hnb harrow,
      htrim]
    have hred : (((some bb).map
          (fun b => { b with text_lines := b.text_lines ++ [l] }) : Option VttBlock), acc)
        = ((some { bb with text_lines := bb.text_lines ++ [l] } : Option VttBlock), acc) := rfl
    rw [hred, ih (fun x hx => hwf x (List.mem_cons_of_mem l hx))]
    simp [List.append_assoc]

theorem parse_block (b : VttBlock) (hwf : wfBlockB b = true)
    (st : Option VttBlock × List VttBlock) :
    List.foldl parseStep st (writeBlockLines .Ltr b) = (some b, parseFinish st) := by
  simp only [wfBlockB, Bool.and_eq_true] at hwf
  obtain ⟨⟨hid, htc⟩, htls⟩ := hwf
  rw [List.all_eq_true] at htls
  have hmap : b.text_lines.map (writeTextLine .Ltr) = b.text_lines := by
    have hcongr : ∀ l ∈ b.text_lines, writeTextLine .Ltr l = id l := by
      intro l hl
      have hwl := htls l hl
      simp only [wfLineB, Bool.and_eq_true, decide_eq_true_eq] at hwl
      show rustTrim l = l
      exact hwl.1.1.1.1
    rw [List.map_congr_left hcongr, List.map_id]
  unfold writeBlockLines
  rw [hmap, List.foldl_cons,
    parseStep_newblock st b._id (newblock_not_blank _ hid) (newblock_ne_webvtt _ hid) hid,
    List.foldl_cons]
  have htcstep : parseStep (some ⟨b._id, [], []⟩, parseFinish st) b.timecode
      = (some ⟨b._id, b.timecode, []⟩, parseFinish st) := by
    rw [Bool.or_eq_true] at htc
    rcases htc with htc | htc
    · rw [List.isEmpty_iff] at htc
      rw [htc, parseStep_skip _ [] (Or.inl rfl)]
    · rw [Bool.and_eq_true, Bool.not_eq_true'] at htc
      obtain ⟨harr, hnb⟩ := htc
      rw [parseStep_timecode _ _ (arrow_not_blank _ harr) (arrow_ne_webvtt _ harr) hnb harr]
      rfl
  rw [htcstep, List.foldl_append,
    parse_textlines b.text_lines htls ⟨b._id, b.timecode, []⟩ (parseFinish st),
    List.foldl_cons, parseStep_skip _ [] (Or.inl rfl), List.foldl_nil]
  rfl

theorem parse_blocks :
    ∀ (blocks : List VttBlock), (∀ b ∈ blocks, wfBlockB b = true) →
      ∀ st, parseFinish (List.foldl parseStep st (blocks.flatMap (writeBlockLines .Ltr)))
        = parseFinish st ++ blocks := by
  intro blocks
  induction blocks with
  | nil =>
    intro _ st
    simp
  | cons b bs ih =>
    intro hwf st
    rw [List.flatMap_cons, List.foldl_append,
      parse_block b (hwf b (List.mem_cons_self b bs)) st,
      ih (fun x hx => hwf x (List.mem_cons_of_mem b hx)) (some b, parseFinish st)]
    show (parseFinish st ++ [b]) ++ bs = parseFinish st ++ b :: bs
    simp

theorem parse_write_roundtrip (v : Vtt) (hwf : vttWellFormed v = true) :
    parseLines (writeLines v .Ltr) = v := by
  unfold vttWellFormed at hwf
  rw [List.all_eq_true] at hwf
  unfold parseLines writeLines
  rw [List.foldl_cons, parseStep_skip _ webvttChars (Or.inr rfl),
    List.foldl_cons, parseStep_skip _ [] (Or.inl rfl)]
  rw [show (Vtt.mk (parseFinish (List.foldl parseStep (none, [])
      (v.blocks.flatMap (writeBlockLines .Ltr)))) : Vtt)
    = Vtt.mk (parseFinish ((none : Option VttBlock), ([] : List VttBlock)) ++ v.blocks) from
      congrArg Vtt.mk (parse_blocks v.blocks hwf (none, []))]
  show Vtt.mk ([] ++ v.blocks) = v
  rw [List.nil_append]

/-- C6: parsing a well-formed document, writing it with left-to-right
direction, and parsing the written output reproduces the same block
sequence: identical identifiers, timecode lines and (trimmed) text lines. -/
theorem claim_C6_roundtrip (doc : List (List Char))
    (h : vttWellFormed (parseLines doc) = true) :
    parseLines (writeLines (parseLines doc) .Ltr) = parseLines doc :=
  parse_write_roundtrip (parseLines doc) h

/-- A concrete well-formed document. -/
def exDoc : List (List Char) :=
  ["WEBVTT".toList, "".toList,
   "f9e6254d-71b5-400f-bdcc-802831ce24f4-0".toList,
   "00:00:05.020 --> 00:00:08.874".toList,
   "Hello there.".toList]

/-- Witness for C6 at a concrete document. -/
theorem claim_C6_witness :
    vttWellFormed (parseLines exDoc) = true
    ∧ parseLines (writeLines (parseLines exDoc) .Ltr) = parseLines exDoc :=
  ⟨by decide, claim_C6_roundtrip exDoc (by decide)⟩
